import Mathlib

/-!
Verification model of the receipt-processing-center repository.

The development shallowly embeds the parts of the code base that the
checked properties are about:

* `core/canonicalization.py` — `generate_normalized_key`,
  `normalize_subscription_fields`, `invalidate_canonical_cache`;
* `core/encryption.py` — `encrypt_value` / `decrypt_value`,
  `encrypt_data` / `decrypt_data` and the `SENSITIVE_FIELDS` table;
* `core/batch_operations.py` — `batch_delete`;
* `table_processor/subscription_records/service.py` —
  `calculate_chain_key_bidx`, the chain-grouping query of
  `get_subscriptions`, `delete_subscriptions`, `_enrich_subscription`.

Python strings are modelled as `List Char` (ASCII behaviour of
`str.lower` / `str.upper` / `str.strip`; every input appearing in the
properties is ASCII).  Machine integers are `Nat` with explicit
`% 2 ^ 32` where the MD5 digest needs 32-bit arithmetic.  Database
tables are lists of records, Redis is an association list, and each
`async with AsyncSessionLocal()` block of the source is one atomic
transaction of the embedded semantics.  Fallible steps return
`Except`.  The Fernet codec of the `cryptography` package is an
external dependency of the repository; it is modelled as a parameter
(an arbitrary pair of total functions), and properties that need its
round trip assume it explicitly.
-/

namespace RPC

abbrev Str := List Char

/-! ## ASCII string primitives (Python `str` methods used by the code) -/

/-- ASCII model of Python `str.lower` on one character. -/
def pyLower (c : Char) : Char :=
  if 'A' ≤ c ∧ c ≤ 'Z' then Char.ofNat (c.toNat + 32) else c

/-- ASCII model of Python `str.upper` on one character. -/
def pyUpper (c : Char) : Char :=
  if 'a' ≤ c ∧ c ≤ 'z' then Char.ofNat (c.toNat - 32) else c

/-- The whitespace characters stripped by Python `str.strip` (ASCII part). -/
def isPySpace (c : Char) : Bool :=
  c = ' ' ∨ c = '\t' ∨ c = '\n' ∨ c = '\r' ∨ c = Char.ofNat 11 ∨ c = Char.ofNat 12

/-- Model of Python `str.strip`: drop whitespace from both ends. -/
def pyStrip (l : Str) : Str :=
  ((l.dropWhile isPySpace).reverse.dropWhile isPySpace).reverse

/-- The characters kept by `re.sub(r'[^a-z0-9]', '', ·)`. -/
def isKept (c : Char) : Bool :=
  ('a' ≤ c ∧ c ≤ 'z') ∨ ('0' ≤ c ∧ c ≤ '9')

/-- Suffix of the list strictly after the first `')'`, if any. -/
def findRParen : Str → Option Str
  | [] => none
  | c :: cs => if c = ')' then some cs else findRParen cs

/-- Model of `re.sub(r'\([^)]*\)', '', s)` with fuel (the fuel is the
length of the list, which bounds the recursion): each `'('` that is
followed by a `')'` is removed together with everything up to and
including that `')'`; a `'('` with no later `')'` is kept, as the
regex requires a closing parenthesis to match. -/
def removeParensAux : Nat → Str → Str
  | 0, l => l
  | _ + 1, [] => []
  | fuel + 1, c :: cs =>
    if c = '(' then
      match findRParen cs with
      | some cs' => removeParensAux fuel cs'
      | none => c :: removeParensAux fuel cs
    else c :: removeParensAux fuel cs

def removeParens (l : Str) : Str :=
  removeParensAux l.length l

/-! ## MD5 (`hashlib.md5(...).hexdigest()` used for the matching keys)

The digest is computed over Nat values kept below `2 ^ 32`. -/

/-- 2^32, the modulus of MD5 word arithmetic. -/
def M32 : Nat := 4294967296

def add32 (a b : Nat) : Nat := (a + b) % M32

/-- Bitwise complement on 32-bit words (arguments stay below `M32`). -/
def not32 (a : Nat) : Nat := 4294967295 - a

def rotl32 (x c : Nat) : Nat :=
  ((x <<< c) % M32) ||| (x >>> (32 - c))

/-- MD5 sine-derived round constants. -/
def md5K : List Nat :=
  [3614090360, 3905402710, 606105819, 3250441966, 4118548399, 1200080426, 2821735955, 4249261313,
   1770035416, 2336552879, 4294925233, 2304563134, 1804603682, 4254626195, 2792965006, 1236535329,
   4129170786, 3225465664, 643717713, 3921069994, 3593408605, 38016083, 3634488961, 3889429448,
   568446438, 3275163606, 4107603335, 1163531501, 2850285829, 4243563512, 1735328473, 2368359562,
   4294588738, 2272392833, 1839030562, 4259657740, 2763975236, 1272893353, 4139469664, 3200236656,
   681279174, 3936430074, 3572445317, 76029189, 3654602809, 3873151461, 530742520, 3299628645,
   4096336452, 1126891415, 2878612391, 4237533241, 1700485571, 2399980690, 4293915773, 2240044497,
   1873313359, 4264355552, 2734768916, 1309151649, 4149444226, 3174756917, 718787259, 3951481745]

/-- MD5 per-round left-rotation amounts. -/
def md5S : List Nat :=
  [7, 12, 17, 22, 7, 12, 17, 22, 7, 12, 17, 22, 7, 12, 17, 22,
   5, 9, 14, 20, 5, 9, 14, 20, 5, 9, 14, 20, 5, 9, 14, 20,
   4, 11, 16, 23, 4, 11, 16, 23, 4, 11, 16, 23, 4, 11, 16, 23,
   6, 10, 15, 21, 6, 10, 15, 21, 6, 10, 15, 21, 6, 10, 15, 21]

/-- One MD5 round on the state `(a, b, c, d)` with message-word accessor `m`. -/
def md5Round (m : Nat → Nat) (st : Nat × Nat × Nat × Nat) (i : Nat) : Nat × Nat × Nat × Nat :=
  let (a, b, c, d) := st
  let f :=
    if i < 16 then (b &&& c) ||| (not32 b &&& d)
    else if i < 32 then (d &&& b) ||| (not32 d &&& c)
    else if i < 48 then b ^^^ c ^^^ d
    else c ^^^ (b ||| not32 d)
  let g :=
    if i < 16 then i
    else if i < 32 then (5 * i + 1) % 16
    else if i < 48 then (3 * i + 5) % 16
    else (7 * i) % 16
  let f := (f + a + md5K.getD i 0 + m g) % M32
  (d, add32 b (rotl32 f (md5S.getD i 0)), b, c)

/-- The j-th little-endian 32-bit word of a 64-byte block. -/
def blockWord (blk : List Nat) (j : Nat) : Nat :=
  blk.getD (4 * j) 0 + 256 * blk.getD (4 * j + 1) 0 +
    65536 * blk.getD (4 * j + 2) 0 + 16777216 * blk.getD (4 * j + 3) 0

/-- Fold one 64-byte block into the MD5 state. -/
def md5Block (st : Nat × Nat × Nat × Nat) (blk : List Nat) : Nat × Nat × Nat × Nat :=
  let (a0, b0, c0, d0) := st
  let (a, b, c, d) := (List.range 64).foldl (md5Round (blockWord blk)) (a0, b0, c0, d0)
  (add32 a0 a, add32 b0 b, add32 c0 c, add32 d0 d)

/-- Split the padded message into 64-byte blocks (its length is a multiple of 64). -/
def toBlocks (l : List Nat) : List (List Nat) :=
  (List.range (l.length / 64)).map fun i => (l.drop (64 * i)).take 64

/-- MD5 padding: append `0x80`, zeros up to 56 mod 64, then the 64-bit
little-endian bit length. -/
def md5Pad (msg : List Nat) : List Nat :=
  let len := msg.length
  let zeros := (119 - len % 64) % 64
  let bits := (8 * len) % (2 ^ 64)
  msg ++ [128] ++ List.replicate zeros 0 ++
    ((List.range 8).map fun i => (bits >>> (8 * i)) % 256)

def hexDigit (n : Nat) : Char :=
  if n < 10 then Char.ofNat (48 + n) else Char.ofNat (87 + n)

/-- Lowercase little-endian hex rendering of one 32-bit word. -/
def wordHex (w : Nat) : List Char :=
  (List.range 4).flatMap fun i =>
    let b := (w >>> (8 * i)) % 256
    [hexDigit (b / 16), hexDigit (b % 16)]

/-- MD5 digest of a byte list, as the 32 lowercase hex characters of
`hashlib.md5(...).hexdigest()`. -/
def md5Hex (msg : List Nat) : Str :=
  let blocks := toBlocks (md5Pad msg)
  let (a, b, c, d) := blocks.foldl md5Block (1732584193, 4023233417, 2562383102, 271733878)
  wordHex a ++ wordHex b ++ wordHex c ++ wordHex d

/-- UTF-8 encoding of a character list (Python `str.encode()`). -/
def utf8Bytes (l : Str) : List Nat :=
  l.flatMap fun c =>
    let n := c.toNat
    if n < 128 then [n]
    else if n < 2048 then [192 + n / 64, 128 + n % 64]
    else if n < 65536 then [224 + n / 4096, 128 + (n / 64) % 64, 128 + n % 64]
    else [240 + n / 262144, 128 + (n / 4096) % 64, 128 + (n / 64) % 64, 128 + n % 64]

/-! ## Amount formatting

The Python code formats `float(amount)` with `f"\x7bfloat(amount):.2f\x7d"`.
Amounts are modelled as rationals; the numeric value of the Python
float is the modelled input, so `120.0` and `120.00` are the same
model amount.  Two-decimal formatting rounds the value to cents
(round-half-to-even, which agrees with Python on every decimally
exact value) and prints it with exactly two decimals. -/

/-- Round `x * m` to the nearest integer, halves to even, computed on
the numerator and denominator directly (`x * m = x.num * m / x.den`
with `x.den > 0`; the fractional part is `(n - f * d) / d` and is
compared with `1 / 2` by cross-multiplying). -/
def roundHalfEvenMul (x : ℚ) (m : Nat) : ℤ :=
  let n : ℤ := x.num * m
  let d : ℤ := x.den
  let f : ℤ := Int.fdiv n d
  let twice : ℤ := 2 * (n - f * d)
  if twice < d then f
  else if d < twice then f + 1
  else if f % 2 = 0 then f else f + 1

/-- Decimal digits with fuel (any fuel above the digit count gives the
same answer; `natDigits` supplies `n + 1`, which always suffices). -/
def natDigitsAux : Nat → Nat → Str
  | 0, _ => []
  | fuel + 1, n =>
    if n < 10 then [Char.ofNat (48 + n)]
    else natDigitsAux fuel (n / 10) ++ [Char.ofNat (48 + n % 10)]

/-- Decimal digits of a natural number, most significant first. -/
def natDigits (n : Nat) : Str :=
  natDigitsAux (n + 1) n

/-- Model of `f"\x7bx:.2f\x7d"`: fixed two-decimal rendering of a rational. -/
def format2f (x : ℚ) : Str :=
  let cents := roundHalfEvenMul x 100
  let sign : Str := if cents < 0 then ['-'] else []
  let n := cents.natAbs
  sign ++ natDigits (n / 100) ++ ['.'] ++
    [Char.ofNat (48 + n % 100 / 10), Char.ofNat (48 + n % 10)]

/-! ## `generate_normalized_key` (core/canonicalization.py) -/

/-- The cleaning applied to each of buyer/seller/plan: strip
parenthesized substrings, lower-case, strip surrounding whitespace,
keep only `[a-z0-9]`. -/
def cleanField (s : Str) : Str :=
  (pyStrip ((removeParens s).map pyLower)).filter isKept

/-- The `"|"`-joined normalized components hashed by
`generate_normalized_key`. -/
def keyHashInput (buyer_name seller_name plan_name currency : Str) (amount : ℚ) : Str :=
  cleanField buyer_name ++ ['|'] ++ cleanField seller_name ++ ['|'] ++
    cleanField plan_name ++ ['|'] ++ pyStrip (currency.map pyUpper) ++ ['|'] ++
    format2f amount

/-- `generate_normalized_key` of core/canonicalization.py: the MD5 hex
digest of the joined normalized components. -/
def generate_normalized_key (buyer_name seller_name plan_name currency : Str)
    (amount : ℚ) : Str :=
  md5Hex (utf8Bytes (keyHashInput buyer_name seller_name plan_name currency amount))

/-! ## Fernet codec (external `cryptography` dependency)

The repository consumes Fernet as an opaque `encrypt` / `decrypt`
pair; the model takes the pair as a parameter. -/

structure Fernet where
  enc : Str → Str
  dec : Str → Str

/-- `encrypt_value` of core/encryption.py on the string values the
canonicalization module passes it: `None` and `""` are returned
unchanged, everything else is encrypted (the base64 wrapping is part
of the opaque codec). -/
def strEncrypt (f : Fernet) (v : Str) : Str :=
  if v = [] then v else f.enc v

/-- `decrypt_value` of core/encryption.py on string values. -/
def strDecrypt (f : Fernet) (v : Str) : Str :=
  if v = [] then v else f.dec v

/-! ## Canonical entity registry (core/models.py `CanonicalEntities`)

The table has no unique constraint on `normalized_key` (only the
primary key `id` and an index on `user_id`), so inserting a second row
with an existing key succeeds. -/

structure CanonicalEntity where
  id : Nat
  user_id : Str
  canonical_buyer_name : Str
  canonical_seller_name : Str
  canonical_plan_name : Str
  canonical_currency : Str
  canonical_amount : ℚ
  normalized_key : Str
  match_count : Nat
  is_active : Bool
deriving Repr, DecidableEq

/-- The canonical_entities table plus the autoincrement counter. -/
structure CanonDB where
  rows : List CanonicalEntity
  nextId : Nat
deriving Repr, DecidableEq

/-- The raw subscription fields handed to the resolver. -/
structure RawFields where
  buyer_name : Str
  seller_name : Str
  plan_name : Str
  currency : Str
  amount : ℚ
deriving Repr, DecidableEq

def rawKey (raw : RawFields) : Str :=
  generate_normalized_key raw.buyer_name raw.seller_name raw.plan_name raw.currency raw.amount

inductive MatchType
  | exact
  | fuzzy
deriving Repr, DecidableEq

/-- The payload `json.dumps`-ed into Redis by the resolver. -/
structure CachePayload where
  match_type : MatchType
  score : Option ℚ
  fields : RawFields
  canonical_id : Nat
deriving Repr, DecidableEq

/-- Outcome of the guarded `redis_client.get` call: a hit, a miss, or
an exception (which the code logs and then continues past). -/
inductive CacheGetOutcome
  | hit (p : CachePayload)
  | miss
  | err
deriving Repr, DecidableEq

/-- Errors `normalize_subscription_fields` can propagate:
`scalar_one_or_none` raising on several exact rows, and the unguarded
fuzzy-match query raising. -/
inductive RErr
  | multipleResults
  | fuzzyQueryError
deriving Repr, DecidableEq

/-- Return value of the resolver, tagged with the branch that produced
it (cache hit / exact match / fuzzy match / newly created row). -/
inductive ResolveReturn
  | fromCache (p : CachePayload)
  | exact (fields : RawFields) (canonical_id : Nat)
  | fuzzy (fields : RawFields) (canonical_id : Nat)
  | created (fields : RawFields) (canonical_id : Nat)
deriving Repr, DecidableEq

/-- The Redis key `canonical:` ++ user_id ++ `:` ++ normalized_key. -/
def cacheKeyOf (user key : Str) : Str :=
  ("canonical:").data ++ user ++ [':'] ++ key

/-- FUZZY_THRESHOLD = 0.85 of core/canonicalization.py. -/
def FUZZY_THRESHOLD : ℚ := mkRat 85 100

/-- The exact-match query: rows of this user with this normalized key
and `is_active` true. -/
def exactMatches (user key : Str) (db : CanonDB) : List CanonicalEntity :=
  db.rows.filter fun e =>
    decide (e.user_id = user ∧ e.normalized_key = key ∧ e.is_active = true)

/-- The `match_count + 1` / `last_matched_at` update transaction. -/
def bumpMatch (eid : Nat) (db : CanonDB) : CanonDB :=
  { db with
    rows := db.rows.map fun e =>
      if e.id = eid then { e with match_count := e.match_count + 1 } else e }

/-- Candidate rows of the fuzzy query: same user, active and trigram
similarity to the probe key strictly above the threshold.  The
similarity function itself is PostgreSQL's `pg_trgm`, an external
capability, so it is a parameter. -/
def fuzzyEligible (sim : Str → Str → ℚ) (user key : Str) (db : CanonDB) :
    List CanonicalEntity :=
  db.rows.filter fun e =>
    decide (e.user_id = user ∧ e.is_active = true ∧
      FUZZY_THRESHOLD < sim e.normalized_key key)

/-- One step of selecting the top-1 row ordered by similarity
descending then `match_count` descending (on a full tie the query
order is unspecified; the model keeps the earlier row). -/
def stepBest (sim : Str → Str → ℚ) (key : Str) (best : Option CanonicalEntity)
    (e : CanonicalEntity) : Option CanonicalEntity :=
  match best with
  | none => some e
  | some b =>
    if sim b.normalized_key key < sim e.normalized_key key ∨
        (sim b.normalized_key key = sim e.normalized_key key ∧
          b.match_count < e.match_count) then
      some e
    else some b

/-- The fuzzy-match query: best-scoring eligible row, if any. -/
def fuzzyBest (sim : Str → Str → ℚ) (user key : Str) (db : CanonDB) :
    Option CanonicalEntity :=
  (fuzzyEligible sim user key db).foldl (stepBest sim key) none

/-- The row inserted by the create-new branch: encrypted names, plain
currency, `match_count = 1`, and the column default `is_active = true`. -/
def mkNewEntity (f : Fernet) (raw : RawFields) (user key : Str) (id : Nat) :
    CanonicalEntity :=
  { id := id
    user_id := user
    canonical_buyer_name := strEncrypt f raw.buyer_name
    canonical_seller_name := strEncrypt f raw.seller_name
    canonical_plan_name := strEncrypt f raw.plan_name
    canonical_currency := raw.currency
    canonical_amount := raw.amount
    normalized_key := key
    match_count := 1
    is_active := true }

/-- The canonical field values a fuzzy match adopts: decrypted stored
names, stored currency and amount. -/
def adoptedFields (f : Fernet) (e : CanonicalEntity) : RawFields :=
  { buyer_name := strDecrypt f e.canonical_buyer_name
    seller_name := strDecrypt f e.canonical_seller_name
    plan_name := strDecrypt f e.canonical_plan_name
    currency := e.canonical_currency
    amount := e.canonical_amount }

/-- `normalize_subscription_fields` of core/canonicalization.py.

Order of the source: compute the key; guarded cache read (a hit
returns the cached payload, a read failure is logged and treated as a
miss); exact-match transaction (bumping `match_count` on a hit);
fuzzy-match query (NOT guarded by try/except — a failure propagates);
fuzzy bump transaction; otherwise insert a fresh row.  Each successful
non-cache branch attempts a guarded `setex` (a write failure is logged
and dropped).  The result is the returned value, the table state after
the call, and the list of cache writes performed. -/
def normalize_subscription_fields (f : Fernet) (sim : Str → Str → ℚ)
    (cacheGet : CacheGetOutcome) (setexFails fuzzyFails : Bool)
    (raw : RawFields) (user_id : Str) (db : CanonDB) :
    Except RErr ResolveReturn × CanonDB × List (Str × CachePayload) :=
  let normalized_key := rawKey raw
  let cache_key := cacheKeyOf user_id normalized_key
  match cacheGet with
  | .hit p => (.ok (.fromCache p), db, [])
  | _ =>
    match exactMatches user_id normalized_key db with
    | [e] =>
      (.ok (.exact raw e.id), bumpMatch e.id db,
        if setexFails then [] else [(cache_key, ⟨.exact, none, raw, e.id⟩)])
    | _ :: _ :: _ => (.error .multipleResults, db, [])
    | [] =>
      if fuzzyFails then (.error .fuzzyQueryError, db, [])
      else
        match fuzzyBest sim user_id normalized_key db with
        | some e =>
          let fields := adoptedFields f e
          (.ok (.fuzzy fields e.id), bumpMatch e.id db,
            if setexFails then []
            else [(cache_key, ⟨.fuzzy, some (sim e.normalized_key normalized_key), fields, e.id⟩)])
        | none =>
          let newId := db.nextId
          (.ok (.created raw newId),
            ⟨db.rows ++ [mkNewEntity f raw user_id normalized_key newId], newId + 1⟩,
            if setexFails then [] else [(cache_key, ⟨.exact, none, raw, newId⟩)])

/-- `invalidate_canonical_cache` of core/canonicalization.py.  The
whole body sits in one try/except that logs and swallows every cache
failure; the flags say whether the delete call and the scan loop
raise. -/
def invalidate_canonical_cache (deleteFails scanFails : Bool) (user_id : Str)
    (normalized_key : Option Str) : Except Unit Unit :=
  let attempt : Except Unit Unit :=
    match normalized_key with
    | some _ => if deleteFails then .error () else .ok ()
    | none =>
      if scanFails then .error ()
      else if deleteFails then .error () else .ok ()
  match attempt with
  | .error _ => .ok ()
  | .ok _ => .ok ()

/-! ## Transaction-level concurrency machine for the resolver

`normalize_subscription_fields` runs its database work in separate
`async with AsyncSessionLocal()` blocks: the exact-match transaction
(select + update + commit), the fuzzy-match query, the fuzzy
`match_count` update, and the insert are four distinct atomic units,
with the cache read before them and the cache write after.  The
machine below runs one call as a sequence of such atomic steps over
the shared database and cache, so that interleavings of concurrent
calls can be examined. -/

inductive Phase
  | readCache
  | exactTx
  | fuzzyTx
  | fuzzyUpdTx (e : CanonicalEntity)
  | insertTx
  | writeCache (payload : CachePayload) (res : ResolveReturn)
  | finished (res : Except RErr ResolveReturn)

/-- The state shared by all concurrent resolver calls. -/
structure Shared where
  db : CanonDB
  cache : List (Str × CachePayload)
deriving Repr, DecidableEq

/-- One in-flight resolver call: its input, its normalized key
(computed once at entry) and its control point. -/
structure CallState where
  raw : RawFields
  user_id : Str
  key : Str
  phase : Phase

def mkCall (raw : RawFields) (user : Str) : CallState :=
  ⟨raw, user, rawKey raw, .readCache⟩

/-- Redis `setex`: overwrite the key. -/
def cacheSet (cache : List (Str × CachePayload)) (k : Str) (p : CachePayload) :
    List (Str × CachePayload) :=
  (k, p) :: cache.filter fun kv => decide (¬ kv.1 = k)

/-- One atomic step of a resolver call (healthy cache, healthy fuzzy
query; the step order mirrors the source's straight-line body). -/
def machineStep (f : Fernet) (sim : Str → Str → ℚ) (c : CallState) (st : Shared) :
    CallState × Shared :=
  let ck := cacheKeyOf c.user_id c.key
  match c.phase with
  | .readCache =>
    match (st.cache.find? fun kv => decide (kv.1 = ck)) with
    | some kv => ({ c with phase := .finished (.ok (.fromCache kv.2)) }, st)
    | none => ({ c with phase := .exactTx }, st)
  | .exactTx =>
    match exactMatches c.user_id c.key st.db with
    | [e] =>
      let payload : CachePayload := ⟨.exact, none, c.raw, e.id⟩
      ({ c with phase := .writeCache payload (.exact c.raw e.id) },
        { st with db := bumpMatch e.id st.db })
    | _ :: _ :: _ => ({ c with phase := .finished (.error .multipleResults) }, st)
    | [] => ({ c with phase := .fuzzyTx }, st)
  | .fuzzyTx =>
    match fuzzyBest sim c.user_id c.key st.db with
    | some e => ({ c with phase := .fuzzyUpdTx e }, st)
    | none => ({ c with phase := .insertTx }, st)
  | .fuzzyUpdTx e =>
    let fields := adoptedFields f e
    let payload : CachePayload := ⟨.fuzzy, some (sim e.normalized_key c.key), fields, e.id⟩
    ({ c with phase := .writeCache payload (.fuzzy fields e.id) },
      { st with db := bumpMatch e.id st.db })
  | .insertTx =>
    let newId := st.db.nextId
    let payload : CachePayload := ⟨.exact, none, c.raw, newId⟩
    ({ c with phase := .writeCache payload (.created c.raw newId) },
      { st with db := ⟨st.db.rows ++ [mkNewEntity f c.raw c.user_id c.key newId], newId + 1⟩ })
  | .writeCache p res =>
    ({ c with phase := .finished (.ok res) }, { st with cache := cacheSet st.cache ck p })
  | .finished _ => (c, st)

/-- Run a schedule over two concurrent calls: `true` steps the first
call, `false` the second. -/
def runSchedule (f : Fernet) (sim : Str → Str → ℚ) :
    List Bool → CallState × CallState → Shared → (CallState × CallState) × Shared
  | [], cs, st => (cs, st)
  | b :: rest, (ca, cb), st =>
    if b then
      let (ca', st') := machineStep f sim ca st
      runSchedule f sim rest (ca', cb) st'
    else
      let (cb', st') := machineStep f sim cb st
      runSchedule f sim rest (ca, cb') st'

/-! ## Subscription records (table_processor/subscription_records/service.py)

Dates are modelled as day numbers (`Int`); `(d₂ - d₁).days` of the
source is plain subtraction. -/

/-- Model of Python `str(x)` on a float with an exact short decimal
expansion (every amount appearing in the checked properties is of this
form): the minimal number of decimals, at least one. -/
def pyFloatStr (q : ℚ) : Str :=
  match (List.range 18).find? fun k => decide (10 ^ k % q.den = 0) with
  | some 0 =>
    (if q < 0 then ['-'] else []) ++ natDigits q.num.natAbs ++ ['.', '0']
  | some k =>
    let n := q.num.natAbs * 10 ^ k / q.den
    (if q < 0 then ['-'] else []) ++ natDigits (n / 10 ^ k) ++ ['.'] ++
      (List.replicate (k - (natDigits (n % 10 ^ k)).length) '0' ++ natDigits (n % 10 ^ k))
  | none =>
    let n := (roundHalfEvenMul q (10 ^ 17)).natAbs
    (if q < 0 then ['-'] else []) ++ natDigits (n / 10 ^ 17) ++ ['.'] ++
      (List.replicate (17 - (natDigits (n % 10 ^ 17)).length) '0' ++ natDigits (n % 10 ^ 17))

/-- `calculate_chain_key_bidx` of subscription_records/service.py:
md5 of `user_id|buyer|seller|plan|currency|amount` with the raw field
values (`str(...)` of strings is the string itself; dates never enter
the hash). -/
def calculate_chain_key_bidx (user_id buyer_name seller_name plan_name currency : Str)
    (amount : ℚ) : Str :=
  md5Hex (utf8Bytes (user_id ++ ['|'] ++ buyer_name ++ ['|'] ++ seller_name ++ ['|'] ++
    plan_name ++ ['|'] ++ currency ++ ['|'] ++ pyFloatStr amount))

/-- One row of the subscription_records table (the columns the checked
properties read). -/
structure SubscriptionRecord where
  ind : Nat
  user_id : Str
  buyer_name : Str
  seller_name : Str
  plan_name : Str
  currency : Str
  amount : ℚ
  start_date : Option Int
  end_date : Option Int
  chain_key_bidx : Str
deriving Repr, DecidableEq

def userRows (user : Str) (db : List SubscriptionRecord) : List SubscriptionRecord :=
  db.filter fun r => decide (r.user_id = user)

/-- The distinct `chain_key_bidx` values in first-appearance order
(the partitions of the window function). -/
def firstOccKeys (rows : List SubscriptionRecord) : List Str :=
  rows.foldl
    (fun acc r =>
      if acc.any (fun k => decide (k = r.chain_key_bidx)) then acc
      else acc ++ [r.chain_key_bidx])
    []

/-- The row with the largest `ind` (the `rn = 1` row of the window
ordered by `ind` descending). -/
def maxIndRow (rows : List SubscriptionRecord) : Option SubscriptionRecord :=
  rows.foldl
    (fun acc r =>
      match acc with
      | none => some r
      | some b => if b.ind < r.ind then some r else some b)
    none

/-- The chain-grouping query of `get_subscriptions`:
`row_number() over (partition by chain_key_bidx order by ind desc)`
filtered to `rn = 1` for one user — one representative (largest `ind`)
per distinct `chain_key_bidx`.  Chain membership is decided by
`chain_key_bidx` alone. -/
def chainRepresentatives (user : Str) (db : List SubscriptionRecord) :
    List SubscriptionRecord :=
  (firstOccKeys (userRows user db)).filterMap fun k =>
    maxIndRow ((userRows user db).filter fun r => decide (r.chain_key_bidx = k))

/-- `_enrich_subscription` of subscription_records/service.py on one
record: returns `(status_label, days_left, days_expired)`.  The
function is total: every branch is a date comparison. -/
def enrichSubscription (end_date : Option Int) (today : Int) : Str × Int × Int :=
  let days_left : Int :=
    match end_date with
    | some e => max (e - today) 0
    | none => 0
  let days_expired : Int :=
    match end_date with
    | some e => max (today - e) 0
    | none => 0
  let status_label : Str :=
    match end_date with
    | some e =>
      if e < today then ("expired").data
      else if e ≤ today + 7 then ("upcoming").data
      else ("active").data
    | none => ("active").data
  (status_label, days_left, days_expired)

/-- The status classifier exactly as the checked property words it
(spec wording, for comparison with `enrichSubscription`). -/
def claimClassify (end_date : Option Int) (today : Int) : Str × Int × Int :=
  match end_date with
  | none => (("active").data, 0, 0)
  | some e =>
    if e < today then (("expired").data, 0, today - e)
    else if today ≤ e ∧ e ≤ today + 7 then (("upcoming").data, e - today, 0)
    else (("active").data, e - today, 0)

/-! ## `batch_delete` (core/batch_operations.py) and
`delete_subscriptions` (subscription_records/service.py) -/

/-- The loop starts `range(0, len, bs)` of the Python batch loop. -/
def batchStarts (len bs : Nat) : List Nat :=
  (List.range ((len + bs - 1) / bs)).map fun i => i * bs

/-- The slices `ids[i : i + bs]` taken by the batch loop. -/
def batchChunks (bs : Nat) (ids : List Nat) : List (List Nat) :=
  (batchStarts ids.length bs).map fun i => (ids.drop i).take bs

/-- Run the per-batch `DELETE ... WHERE ind IN batch` transactions in
order, accumulating the row counts. -/
def deleteChunks : List (List Nat) → List SubscriptionRecord →
    Nat × List SubscriptionRecord
  | [], db => (0, db)
  | c :: cs, db =>
    let remaining := db.filter fun r => decide (¬ r.ind ∈ c)
    let rest := deleteChunks cs remaining
    (db.length - remaining.length + rest.1, rest.2)

/-- `BatchOperations.batch_delete` with `key_field = 'ind'`: the
delete statements filter on `ind` only — no user column appears. -/
def batch_delete (bs : Nat) (ids : List Nat) (db : List SubscriptionRecord) :
    Nat × List SubscriptionRecord :=
  if ids.isEmpty then (0, db) else deleteChunks (batchChunks bs ids) db

/-- `delete_subscriptions` of subscription_records/service.py: reject
an empty `inds` list, otherwise hand `inds` to `batch_delete` (the
`user_id` argument is never used in the delete). -/
def delete_subscriptions (bs : Nat) (user_id : Str) (inds : List Nat)
    (db : List SubscriptionRecord) : Except Unit (Nat × List SubscriptionRecord) :=
  if inds.isEmpty then .error () else .ok (batch_delete bs inds db)

/-! ## Field-level encryption (core/encryption.py) -/

/-- A Python value as stored in a record dict. -/
inductive PyVal
  | vNone
  | vStr (s : Str)
  | vNum (q : ℚ)
deriving Repr, DecidableEq

/-- Python truthiness of the modelled values. -/
def pyTruthy : PyVal → Bool
  | .vNone => false
  | .vStr s => decide (¬ s = [])
  | .vNum q => decide (¬ q = 0)

/-- `encrypt_value` of core/encryption.py: `None` and `""` pass
through; numbers are stringified then encrypted; strings are
encrypted (the base64 wrapping is folded into the opaque codec). -/
def encrypt_value (f : Fernet) : PyVal → PyVal
  | .vNone => .vNone
  | .vStr s => if s = [] then .vStr s else .vStr (f.enc s)
  | .vNum q => .vStr (f.enc (pyFloatStr q))

/-- `decrypt_value` of core/encryption.py: `None` and `""` pass
through; a non-string value makes `.encode()` raise, which the except
branch turns into returning the value unchanged. -/
def decrypt_value (f : Fernet) : PyVal → PyVal
  | .vNone => .vNone
  | .vStr s => if s = [] then .vStr s else .vStr (f.dec s)
  | .vNum q => .vNum q

/-- A Python dict as an association list (keys unique, as in Python). -/
abbrev PyDict := List (Str × PyVal)

def dictGet (d : PyDict) (k : Str) : Option PyVal :=
  (d.find? fun kv => decide (kv.1 = k)).map fun kv => kv.2

def dictSet (d : PyDict) (k : Str) (v : PyVal) : PyDict :=
  d.map fun kv => if kv.1 = k then (kv.1, v) else kv

/-- The `SENSITIVE_FIELDS` table of core/encryption.py. -/
def SENSITIVE_FIELDS : List (Str × List Str) :=
  [(("receipt_items_en").data,
    [("buyer").data, ("seller").data, ("address").data, ("file_url").data,
     ("invoice_number").data, ("original_info").data, ("ocr").data]),
   (("ses_eml_info_en").data,
    [("from_email").data, ("to_email").data, ("s3_eml_url").data,
     ("buyer").data, ("seller").data]),
   (("receipt_summary_zip_en").data,
    [("summary_content").data, ("title").data, ("download_url").data]),
   (("subscription_records").data,
    [("seller_name").data, ("plan_name").data, ("note").data]),
   (("canonical_entities").data,
    [("canonical_buyer_name").data, ("canonical_seller_name").data,
     ("canonical_plan_name").data, ("notes").data])]

def sensitiveFieldsFor (table : Str) : Option (List Str) :=
  (SENSITIVE_FIELDS.find? fun kv => decide (kv.1 = table)).map fun kv => kv.2

/-- One iteration of the encryption loop:
`if field in data and data[field]: data[field] = encrypt_value(...)`. -/
def encStep (f : Fernet) (d : PyDict) (field : Str) : PyDict :=
  match dictGet d field with
  | some v => if pyTruthy v then dictSet d field (encrypt_value f v) else d
  | none => d

/-- One iteration of the decryption loop. -/
def decStep (f : Fernet) (d : PyDict) (field : Str) : PyDict :=
  match dictGet d field with
  | some v => if pyTruthy v then dictSet d field (decrypt_value f v) else d
  | none => d

/-- `encrypt_data` of core/encryption.py: empty dicts and tables with
no configured sensitive fields pass through; otherwise each sensitive
field present and truthy is encrypted in place. -/
def encrypt_data (f : Fernet) (table : Str) (d : PyDict) : PyDict :=
  if d.isEmpty then d
  else
    match sensitiveFieldsFor table with
    | none => d
    | some fields => fields.foldl (encStep f) d

/-- `decrypt_data` of core/encryption.py. -/
def decrypt_data (f : Fernet) (table : Str) (d : PyDict) : PyDict :=
  if d.isEmpty then d
  else
    match sensitiveFieldsFor table with
    | none => d
    | some fields => fields.foldl (decStep f) d

instance {ε α : Type} [DecidableEq ε] [DecidableEq α] : DecidableEq (Except ε α) := fun a b =>
  match a, b with
  | .ok x, .ok y =>
    if h : x = y then .isTrue (by rw [h])
    else .isFalse (by intro hh; injection hh; contradiction)
  | .error x, .error y =>
    if h : x = y then .isTrue (by rw [h])
    else .isFalse (by intro hh; injection hh; contradiction)
  | .ok _, .error _ => .isFalse (fun hh => Except.noConfusion hh)
  | .error _, .ok _ => .isFalse (fun hh => Except.noConfusion hh)

/-! ## Helper lemmas about the field cleaning -/

/-- The case-insensitive alphanumeric content of a string: lower-case
every character, keep only `[a-z0-9]`. -/
def alnumCaseless (l : Str) : Str :=
  (l.map pyLower).filter isKept

theorem filter_dropWhile_of_excluded (p q : Char → Bool)
    (h : ∀ c, q c = true → p c = false) :
    ∀ l : Str, (l.dropWhile q).filter p = l.filter p := by
  intro l
  induction l with
  | nil => rfl
  | cons c cs ih =>
    rw [List.dropWhile_cons]
    by_cases hq : q c = true
    · rw [if_pos hq, ih, List.filter_cons]
      simp [h c hq]
    · rw [if_neg hq]

theorem filter_pyStrip (p : Char → Bool)
    (h : ∀ c, isPySpace c = true → p c = false) (l : Str) :
    (pyStrip l).filter p = l.filter p := by
  unfold pyStrip
  rw [List.filter_reverse, filter_dropWhile_of_excluded p isPySpace h,
    List.filter_reverse, filter_dropWhile_of_excluded p isPySpace h,
    List.reverse_reverse]

theorem isKept_of_space (c : Char) (h : isPySpace c = true) : isKept c = false := by
  simp only [isPySpace, decide_eq_true_eq] at h
  rcases h with h | h | h | h | h | h <;> subst h <;> decide

/-- The cleaning of one buyer/seller/plan field is exactly the
case-insensitive alphanumeric content of its parenthesis-stripped
form (the intermediate `strip` removes only characters the final
filter removes anyway). -/
theorem cleanField_eq (s : Str) : cleanField s = alnumCaseless (removeParens s) := by
  unfold cleanField alnumCaseless
  exact filter_pyStrip isKept isKept_of_space ((removeParens s).map pyLower)

/-! ## Claim theorems -/

/-- C2 (amended): `generate_normalized_key` is a pure function and is
invariant under every difference that survives its cleaning pipeline:
if the buyer/seller/plan fields agree, after stripping parenthesized
substrings, on their alphanumeric characters case-insensitively (so
letter case, whitespace, and other non-alphanumeric characters do not
matter), if the currencies agree after trimming and upper-casing, and
if the amounts are equal as numbers, then the keys are equal.
Differences in non-alphanumeric characters that form a parenthesized
group around alphanumeric content are excluded: the parenthesis strip
runs first and deletes such content (see the counterexample). -/
theorem C2_key_invariance (b b' s s' p p' c c' : Str) (a a' : ℚ)
    (hb : alnumCaseless (removeParens b) = alnumCaseless (removeParens b'))
    (hs : alnumCaseless (removeParens s) = alnumCaseless (removeParens s'))
    (hp : alnumCaseless (removeParens p) = alnumCaseless (removeParens p'))
    (hc : pyStrip (c.map pyUpper) = pyStrip (c'.map pyUpper))
    (ha : a = a') :
    generate_normalized_key b s p c a = generate_normalized_key b' s' p' c' a' := by
  unfold generate_normalized_key keyHashInput
  rw [cleanField_eq b, cleanField_eq b', cleanField_eq s, cleanField_eq s',
    cleanField_eq p, cleanField_eq p', hb, hs, hp, hc, ha]

/-- C2 witness: concrete fields differing in case, whitespace,
punctuation and a parenthesized annotation produce the same key. -/
theorem C2_key_invariance_witness :
    generate_normalized_key (("Acme (HK) Inc").data) (("AWS").data) (("EC2").data)
        ((" usd ").data) 120 =
      generate_normalized_key (("ACME-INC").data) (("aws").data) (("e.c.2").data)
        (("USD").data) 120 :=
  C2_key_invariance _ _ _ _ _ _ _ _ _ _ (by decide) (by decide) (by decide) (by decide) rfl

set_option maxRecDepth 100000 in
/-- C2 counterexample: `"x(a)b"` and `"xab"` differ only in the two
non-alphanumeric characters `'('` and `')'`, yet their keys differ,
because the parenthesis strip runs before the non-alphanumeric filter
and deletes the enclosed `'a'`. -/
theorem C2_counterexample :
    ¬ generate_normalized_key (("x(a)b").data) (("x").data) (("y").data) (("USD").data) 1 =
      generate_normalized_key (("xab").data) (("x").data) (("y").data) (("USD").data) 1 := by
  decide

/-- C5: `_enrich_subscription` is total (every branch is a date
comparison) and computes exactly the classification the specification
states: no `end_date` means active with zero counters; a past
`end_date` means expired with `days_expired = today - end_date`; an
`end_date` within the next 7 days (inclusive) means upcoming with
`days_left = end_date - today`; any later `end_date` means active with
`days_left = end_date - today`. -/
theorem C5_status_classifier (e : Option Int) (t : Int) :
    enrichSubscription e t = claimClassify e t := by
  cases e with
  | none => rfl
  | some d =>
    simp only [enrichSubscription, claimClassify]
    split_ifs with h1 h2 h3 h4 h5 <;>
      simp_all [Prod.ext_iff, max_def] <;> omega

/-- C7 counterexample: with an empty registry (so the exact match
misses) and a failing fuzzy query, the resolver returns the error and
creates nothing, instead of logging and falling through to the
create-new branch as the claim states. -/
theorem C7_counterexample :
    normalize_subscription_fields ⟨id, id⟩ (fun _ _ => 1) .miss false true
        ⟨("Acme Corp").data, ("AWS").data, ("EC2").data, ("usd").data, 120⟩
        (("u1").data) ⟨[], 1⟩ =
      (.error .fuzzyQueryError, ⟨[], 1⟩, []) := by
  rfl

/-- C7 (amended): a fuzzy-match query failure is NOT caught — whenever
the cache does not hit and the exact match finds nothing, a failing
fuzzy query makes the whole call return the error, with the registry
unchanged and no cache write; no new canonical entity is created. -/
theorem C7_fuzzy_error_propagates (f : Fernet) (sim : Str → Str → ℚ)
    (cg : CacheGetOutcome) (setexFails : Bool) (raw : RawFields) (user : Str)
    (db : CanonDB) (hcg : ∀ p, ¬ cg = .hit p)
    (hexact : exactMatches user (rawKey raw) db = []) :
    normalize_subscription_fields f sim cg setexFails true raw user db =
      (.error .fuzzyQueryError, db, []) := by
  cases cg with
  | hit p => exact absurd rfl (hcg p)
  | miss => simp [normalize_subscription_fields, hexact]
  | err => simp [normalize_subscription_fields, hexact]

/-- C7 witness: the amended statement at a concrete input. -/
theorem C7_fuzzy_error_propagates_witness :
    normalize_subscription_fields ⟨id, id⟩ (fun _ _ => 0) .err true true
        ⟨("Acme Corp").data, ("AWS").data, ("EC2").data, ("usd").data, 120⟩
        (("u1").data) ⟨[], 1⟩ =
      (.error .fuzzyQueryError, ⟨[], 1⟩, []) :=
  C7_fuzzy_error_propagates _ _ _ _ _ _ _
    (fun p h => CacheGetOutcome.noConfusion h) rfl

/-- C8: the resolver degrades cache failures to misses and never fails
because of the cache: a failing cache read gives exactly the outcome
of a cache miss; a failing cache write changes neither the returned
value nor the registry state (only the write is dropped); and
`invalidate_canonical_cache` swallows every delete/scan failure and
always returns successfully. -/
theorem C8_cache_failure_is_miss :
    (∀ (f : Fernet) (sim : Str → Str → ℚ) (setexFails fuzzyFails : Bool)
        (raw : RawFields) (user : Str) (db : CanonDB),
      normalize_subscription_fields f sim .err setexFails fuzzyFails raw user db =
        normalize_subscription_fields f sim .miss setexFails fuzzyFails raw user db) ∧
    (∀ (f : Fernet) (sim : Str → Str → ℚ) (cg : CacheGetOutcome) (fuzzyFails : Bool)
        (raw : RawFields) (user : Str) (db : CanonDB),
      (normalize_subscription_fields f sim cg true fuzzyFails raw user db).1 =
        (normalize_subscription_fields f sim cg false fuzzyFails raw user db).1 ∧
      (normalize_subscription_fields f sim cg true fuzzyFails raw user db).2.1 =
        (normalize_subscription_fields f sim cg false fuzzyFails raw user db).2.1) ∧
    (∀ (deleteFails scanFails : Bool) (user : Str) (key : Option Str),
      invalidate_canonical_cache deleteFails scanFails user key = .ok ()) := by
  refine ⟨fun f sim sf ff raw user db => rfl, ?_, ?_⟩
  · intro f sim cg ff raw user db
    cases cg <;> simp only [normalize_subscription_fields] <;>
      constructor <;> (try rfl) <;>
      rcases exactMatches user (rawKey raw) db with _ | ⟨e, _ | ⟨e2, rest⟩⟩ <;>
      simp only [] <;> (try rfl) <;>
      cases ff <;> simp only [Bool.false_eq_true, if_false, if_true] <;> (try rfl) <;>
      rcases fuzzyBest sim user (rawKey raw) db with _ | e3 <;> rfl
  · intro df sf user key
    cases key <;> unfold invalidate_canonical_cache <;> split_ifs <;> rfl

/-! ## Concrete scenario inputs -/

def fernId : Fernet := ⟨id, id⟩

def noSim : Str → Str → ℚ := fun _ _ => 0

def oneSim : Str → Str → ℚ := fun _ _ => 1

def acmeRaw1 : RawFields :=
  ⟨("Acme Corp").data, ("AWS").data, ("EC2").data, ("usd").data, 120⟩

def acmeRaw2 : RawFields :=
  ⟨("ACME CORP").data, ("aws").data, ("ec2").data, ("USD").data, 120⟩

/-- First resolve of the C3 scenario: cold cache, empty registry. -/
def acmeCall1 :=
  normalize_subscription_fields fernId noSim .miss false false acmeRaw1 (("u1").data) ⟨[], 1⟩

/-- A subscription record whose `chain_key_bidx` is computed by the
insert path (`calculate_chain_key_bidx` over the identity fields). -/
def gapRec (i : Nat) (sd ed : Option Int) : SubscriptionRecord :=
  ⟨i, ("u1").data, ("Netflix").data, ("Netflix Inc").data, ("Premium").data, ("USD").data,
    120, sd, ed,
    calculate_chain_key_bidx (("u1").data) (("Netflix").data) (("Netflix Inc").data)
      (("Premium").data) (("USD").data) 120⟩

set_option maxRecDepth 1000000 in
/-- C1: the resolver is a check-then-insert sequence, not an atomic
upsert (the table also has no unique constraint on `normalized_key`),
so two concurrent resolutions of the same brand-new fact can both
observe an empty registry and both insert: under the interleaved
schedule below, the run ends with TWO canonical rows for the one
normalized key, each with `match_count = 1` — not one row with
`match_count = 2` as the property demands. -/
theorem C1_concurrent_create_race :
    (runSchedule fernId oneSim [true, false, true, false, true, false, true, false, true, false]
        (mkCall acmeRaw1 (("u1").data), mkCall acmeRaw1 (("u1").data))
        ⟨⟨[], 1⟩, []⟩).2.db.rows.map
        (fun e => (e.id, e.match_count, decide (e.normalized_key = rawKey acmeRaw1))) =
      [(1, 1, true), (2, 1, true)] := by
  decide

set_option maxRecDepth 1000000 in
/-- C3 counterexample: the first resolve creates canonical id 1 with
`match_count = 1` and writes the payload to the shared cache under the
normalized key; the second resolve computes the SAME cache key (the
case/format variants normalize identically), so with a functioning
shared cache it hits and returns the cached payload — the exact-match
branch never runs and `match_count` stays 1, not 2. -/
theorem C3_counterexample :
    acmeCall1.1 = .ok (.created acmeRaw1 1) ∧
    (acmeCall1.2.1.rows.map fun e => (e.id, e.match_count)) = [(1, 1)] ∧
    rawKey acmeRaw2 = rawKey acmeRaw1 ∧
    acmeCall1.2.2 = [(cacheKeyOf (("u1").data) (rawKey acmeRaw1), ⟨.exact, none, acmeRaw1, 1⟩)] ∧
    (normalize_subscription_fields fernId noSim (.hit ⟨.exact, none, acmeRaw1, 1⟩) false false
        acmeRaw2 (("u1").data) acmeCall1.2.1).1 = .ok (.fromCache ⟨.exact, none, acmeRaw1, 1⟩) ∧
    ((normalize_subscription_fields fernId noSim (.hit ⟨.exact, none, acmeRaw1, 1⟩) false false
        acmeRaw2 (("u1").data) acmeCall1.2.1).2.1.rows.map fun e => (e.id, e.match_count)) =
      [(1, 1)] := by
  decide

set_option maxRecDepth 1000000 in
/-- C3 (amended): the claimed scenario holds exactly when the second
call's cache lookup does not hit (cold or failing cache): then the
second resolve takes the exact-normalized-key branch (not fuzzy, not
create), returns the same canonical id 1, and leaves `match_count = 2`;
the same holds when the cache read errors. -/
theorem C3_exact_path_on_cache_miss :
    ((normalize_subscription_fields fernId noSim .miss false false
        acmeRaw2 (("u1").data) acmeCall1.2.1).1 = .ok (.exact acmeRaw2 1)) ∧
    ((normalize_subscription_fields fernId noSim .miss false false
        acmeRaw2 (("u1").data) acmeCall1.2.1).2.1.rows.map fun e => (e.id, e.match_count)) =
      [(1, 2)] ∧
    ((normalize_subscription_fields fernId noSim .err false false
        acmeRaw2 (("u1").data) acmeCall1.2.1).1 = .ok (.exact acmeRaw2 1)) ∧
    ((normalize_subscription_fields fernId noSim .err false false
        acmeRaw2 (("u1").data) acmeCall1.2.1).2.1.rows.map fun e => (e.id, e.match_count)) =
      [(1, 2)] := by
  decide

set_option maxRecDepth 1000000 in
/-- C4 counterexample: two records with identical identity keys whose
date gap is 4 days (`start_date 34` minus previous `end_date 30`) land
in the SAME chain — the grouping partitions by `chain_key_bidx` alone
and no date-gap condition exists anywhere in the code, so the claimed
"4 days puts them in separate chains" boundary fails. -/
theorem C4_counterexample :
    (gapRec 1 (some 0) (some 30)).end_date = some 30 ∧
    (gapRec 2 (some 34) (some 64)).start_date = some 34 ∧
    chainRepresentatives (("u1").data)
        [gapRec 1 (some 0) (some 30), gapRec 2 (some 34) (some 64)] =
      [gapRec 2 (some 34) (some 64)] := by
  decide

/-- C4 (amended): chain membership is decided by the identity-key hash
`chain_key_bidx` alone, with no date condition: two records of one
user built from the same `(user_id, buyer, seller, plan, currency,
amount)` belong to one chain whatever their dates (any gap, 3 days, 4
days or a year), and two records with different `chain_key_bidx`
values always form two separate chains. -/
theorem C4_chains_ignore_dates :
    (∀ (u b s p c : Str) (a : ℚ) (i1 i2 : Nat) (sd1 ed1 sd2 ed2 : Option Int),
      (chainRepresentatives u
          [⟨i1, u, b, s, p, c, a, sd1, ed1, calculate_chain_key_bidx u b s p c a⟩,
           ⟨i2, u, b, s, p, c, a, sd2, ed2, calculate_chain_key_bidx u b s p c a⟩]).length = 1) ∧
    (∀ (r1 r2 : SubscriptionRecord) (u : Str), r1.user_id = u → r2.user_id = u →
      ¬ r1.chain_key_bidx = r2.chain_key_bidx →
      (chainRepresentatives u [r1, r2]).length = 2) := by
  constructor
  · intro u b s p c a i1 i2 sd1 ed1 sd2 ed2
    by_cases h : i1 < i2 <;>
      simp [chainRepresentatives, userRows, firstOccKeys, maxIndRow, List.filter, List.foldl,
        List.filterMap, h]
  · intro r1 r2 u hu1 hu2 hne
    by_cases h : r1.ind < r2.ind <;>
      simp [chainRepresentatives, userRows, firstOccKeys, maxIndRow, List.filter, List.foldl,
        List.filterMap, hu1, hu2, hne, h, Ne.symm hne]

set_option maxRecDepth 1000000 in
/-- C4 witness: the amended statement applied at concrete inputs —
identical identity fields with a one-year gap still group into one
chain, and records with different plan names (hence different hashes)
group into two. -/
theorem C4_chains_ignore_dates_witness :
    (chainRepresentatives (("u1").data)
        [gapRec 1 (some 0) (some 30), gapRec 2 (some 395) (some 425)]).length = 1 ∧
    (chainRepresentatives (("u1").data)
        [gapRec 1 (some 0) (some 30),
         ⟨2, ("u1").data, ("Netflix").data, ("Netflix Inc").data, ("Basic").data, ("USD").data,
           120, some 31, some 61,
           calculate_chain_key_bidx (("u1").data) (("Netflix").data) (("Netflix Inc").data)
             (("Basic").data) (("USD").data) 120⟩]).length = 2 :=
  ⟨C4_chains_ignore_dates.1 (("u1").data) (("Netflix").data) (("Netflix Inc").data)
      (("Premium").data) (("USD").data) 120 1 2 (some 0) (some 30) (some 395) (some 425),
    C4_chains_ignore_dates.2 _ _ (("u1").data) rfl rfl (by decide)⟩

/-! ## Fuzzy-selection properties (C6) -/

/-- Order used by the fuzzy top-1 query: `a` is at least as good as
`b` when its similarity is higher, or equal with at least the
`match_count`. -/
def scoreGE (sim : Str → Str → ℚ) (key : Str) (a b : CanonicalEntity) : Prop :=
  sim b.normalized_key key < sim a.normalized_key key ∨
    (sim a.normalized_key key = sim b.normalized_key key ∧ b.match_count ≤ a.match_count)

theorem scoreGE_refl (sim : Str → Str → ℚ) (key : Str) (a : CanonicalEntity) :
    scoreGE sim key a a :=
  Or.inr ⟨rfl, le_refl _⟩

theorem scoreGE_trans (sim : Str → Str → ℚ) (key : Str) {a b c : CanonicalEntity}
    (hab : scoreGE sim key a b) (hbc : scoreGE sim key b c) : scoreGE sim key a c := by
  rcases hab with h1 | ⟨h1, h2⟩ <;> rcases hbc with h3 | ⟨h3, h4⟩
  · exact Or.inl (lt_trans h3 h1)
  · exact Or.inl (h3 ▸ h1)
  · exact Or.inl (by rw [h1]; exact h3)
  · exact Or.inr ⟨h1.trans h3, le_trans h4 h2⟩

theorem stepBest_isSome (sim : Str → Str → ℚ) (key : Str) (acc : Option CanonicalEntity)
    (x : CanonicalEntity) : ∃ b, stepBest sim key acc x = some b := by
  cases acc with
  | none => exact ⟨x, rfl⟩
  | some b =>
    show ∃ r, (if sim b.normalized_key key < sim x.normalized_key key ∨
        (sim b.normalized_key key = sim x.normalized_key key ∧
          b.match_count < x.match_count) then some x else some b) = some r
    split_ifs with h
    · exact ⟨x, rfl⟩
    · exact ⟨b, rfl⟩

theorem stepBest_beats_new (sim : Str → Str → ℚ) (key : Str)
    (acc : Option CanonicalEntity) (x b : CanonicalEntity)
    (h : stepBest sim key acc x = some b) : scoreGE sim key b x := by
  cases acc with
  | none =>
    simp only [stepBest] at h
    cases h
    exact scoreGE_refl sim key x
  | some a =>
    simp only [stepBest] at h
    split_ifs at h with hc
    · cases h
      exact scoreGE_refl sim key x
    · cases h
      push_neg at hc
      rcases lt_or_eq_of_le hc.1 with hlt | heq
      · exact Or.inl hlt
      · exact Or.inr ⟨heq.symm, hc.2 heq.symm⟩

theorem stepBest_beats_old (sim : Str → Str → ℚ) (key : Str)
    (a x b : CanonicalEntity) (h : stepBest sim key (some a) x = some b) :
    scoreGE sim key b a := by
  simp only [stepBest] at h
  split_ifs at h with hc
  · cases h
    rcases hc with hlt | ⟨heq, hmc⟩
    · exact Or.inl hlt
    · exact Or.inr ⟨heq.symm, le_of_lt hmc⟩
  · cases h
    exact scoreGE_refl sim key a

theorem stepBest_mem (sim : Str → Str → ℚ) (key : Str)
    (acc : Option CanonicalEntity) (x b : CanonicalEntity)
    (h : stepBest sim key acc x = some b) : b = x ∨ acc = some b := by
  cases acc with
  | none =>
    simp only [stepBest] at h
    cases h
    exact Or.inl rfl
  | some a =>
    simp only [stepBest] at h
    split_ifs at h with hc <;> cases h
    · exact Or.inl rfl
    · exact Or.inr rfl

/-- Specification of the top-1 fold: the result comes from the
accumulator or the list, and is `scoreGE`-maximal over both. -/
theorem foldl_stepBest_spec (sim : Str → Str → ℚ) (key : Str) :
    ∀ (l : List CanonicalEntity) (acc : Option CanonicalEntity) (r : CanonicalEntity),
      l.foldl (stepBest sim key) acc = some r →
        (acc = some r ∨ r ∈ l) ∧
        (∀ b, acc = some b → scoreGE sim key r b) ∧
        (∀ x ∈ l, scoreGE sim key r x) := by
  intro l
  induction l with
  | nil =>
    intro acc r h
    rw [List.foldl_nil] at h
    refine ⟨Or.inl h, fun b hb => ?_, fun x hx => absurd hx (List.not_mem_nil x)⟩
    rw [h] at hb
    injection hb with hb
    subst hb
    exact scoreGE_refl sim key r
  | cons x l ih =>
    intro acc r h
    rw [List.foldl_cons] at h
    obtain ⟨mid, hmid⟩ := stepBest_isSome sim key acc x
    obtain ⟨hmem, hacc, hall⟩ := ih (stepBest sim key acc x) r h
    have hrmid : scoreGE sim key r mid := hacc mid hmid
    refine ⟨?_, ?_, ?_⟩
    · rcases hmem with hm | hm
      · rw [hmid] at hm
        injection hm with hm
        subst hm
        rcases stepBest_mem sim key acc x mid hmid with h1 | h1
        · rw [h1]
          exact Or.inr (List.mem_cons_self x l)
        · exact Or.inl h1
      · exact Or.inr (List.mem_cons_of_mem x hm)
    · intro b hb
      subst hb
      exact scoreGE_trans sim key hrmid (stepBest_beats_old sim key b x mid hmid)
    · intro y hy
      rcases List.mem_cons.mp hy with hy | hy
      · subst hy
        exact scoreGE_trans sim key hrmid (stepBest_beats_new sim key acc y mid hmid)
      · exact hall y hy

/-- C6: a matched fuzzy candidate always belongs to the queried user,
is active, and has similarity strictly above 0.85 (so a candidate at
exactly 0.85 is never matched), and it maximizes similarity with
`match_count` as tie-break among all eligible candidates; when the
exact match is empty and such a candidate exists, the resolver returns
it through the fuzzy branch. -/
theorem C6_fuzzy_selection :
    (∀ (sim : Str → Str → ℚ) (user key : Str) (db : CanonDB) (e : CanonicalEntity),
      fuzzyBest sim user key db = some e →
        e ∈ db.rows ∧ e.user_id = user ∧ e.is_active = true ∧
        FUZZY_THRESHOLD < sim e.normalized_key key ∧
        ∀ e' ∈ db.rows, e'.user_id = user → e'.is_active = true →
          FUZZY_THRESHOLD < sim e'.normalized_key key →
          (sim e'.normalized_key key < sim e.normalized_key key ∨
            (sim e.normalized_key key = sim e'.normalized_key key ∧
              e'.match_count ≤ e.match_count))) ∧
    (∀ (sim : Str → Str → ℚ) (user key : Str) (db : CanonDB) (e : CanonicalEntity),
      sim e.normalized_key key = FUZZY_THRESHOLD → ¬ fuzzyBest sim user key db = some e) ∧
    (∀ (f : Fernet) (sim : Str → Str → ℚ) (setexFails : Bool) (raw : RawFields)
        (user : Str) (db : CanonDB) (e : CanonicalEntity),
      exactMatches user (rawKey raw) db = [] →
      fuzzyBest sim user (rawKey raw) db = some e →
      (normalize_subscription_fields f sim .miss setexFails false raw user db).1 =
        .ok (.fuzzy (adoptedFields f e) e.id)) := by
  have main : ∀ (sim : Str → Str → ℚ) (user key : Str) (db : CanonDB) (e : CanonicalEntity),
      fuzzyBest sim user key db = some e →
        e ∈ db.rows ∧ e.user_id = user ∧ e.is_active = true ∧
        FUZZY_THRESHOLD < sim e.normalized_key key ∧
        ∀ e' ∈ db.rows, e'.user_id = user → e'.is_active = true →
          FUZZY_THRESHOLD < sim e'.normalized_key key →
          (sim e'.normalized_key key < sim e.normalized_key key ∨
            (sim e.normalized_key key = sim e'.normalized_key key ∧
              e'.match_count ≤ e.match_count)) := by
    intro sim user key db e h
    unfold fuzzyBest at h
    obtain ⟨hmem, _, hall⟩ :=
      foldl_stepBest_spec sim key (fuzzyEligible sim user key db) none e h
    rcases hmem with hbad | hmem
    · exact absurd hbad (by simp)
    have hm := List.mem_filter.mp hmem
    have hprops : e.user_id = user ∧ e.is_active = true ∧
        FUZZY_THRESHOLD < sim e.normalized_key key := of_decide_eq_true hm.2
    obtain ⟨hu, hact, hth⟩ := hprops
    refine ⟨hm.1, hu, hact, hth, ?_⟩
    intro e' he' hu' hact' hth'
    have he'elig : e' ∈ fuzzyEligible sim user key db :=
      List.mem_filter.mpr ⟨he', decide_eq_true ⟨hu', hact', hth'⟩⟩
    exact hall e' he'elig
  refine ⟨main, ?_, ?_⟩
  · intro sim user key db e heq hsome
    have hth := (main sim user key db e hsome).2.2.2.1
    rw [heq] at hth
    exact lt_irrefl _ hth
  · intro f sim setexFails raw user db e hex hfz
    simp [normalize_subscription_fields, hex, hfz]

/-- The entities, probe and similarity of the C6 witness: entity 1
scores 0.9 against the probe, entity 2 exactly the 0.85 threshold. -/
def fz1 : CanonicalEntity :=
  ⟨1, ("u1").data, [], [], [], ("USD").data, 10, ("aaaa").data, 1, true⟩

def fz2 : CanonicalEntity :=
  ⟨2, ("u1").data, [], [], [], ("USD").data, 10, ("bbbb").data, 5, true⟩

def fzSim : Str → Str → ℚ := fun k _ =>
  if k = ("aaaa").data then mkRat 9 10 else FUZZY_THRESHOLD

def fzRaw : RawFields :=
  ⟨("Spotify").data, ("Spotify AB").data, ("Duo").data, ("USD").data, 10⟩

set_option maxRecDepth 1000000 in
/-- C6 witness: with both entities present, the 0.9-scoring entity is
selected (and returned by the resolver through the fuzzy branch),
while the entity sitting exactly at the 0.85 threshold can never be
the match. -/
theorem C6_fuzzy_selection_witness :
    FUZZY_THRESHOLD < fzSim (("aaaa").data) (rawKey fzRaw) ∧
    fzSim (("bbbb").data) (rawKey fzRaw) = FUZZY_THRESHOLD ∧
    ¬ fuzzyBest fzSim (("u1").data) (rawKey fzRaw) ⟨[fz1, fz2], 3⟩ = some fz2 ∧
    (normalize_subscription_fields fernId fzSim .miss false false fzRaw (("u1").data)
        ⟨[fz1, fz2], 3⟩).1 = .ok (.fuzzy (adoptedFields fernId fz1) 1) :=
  ⟨by decide, by decide,
    C6_fuzzy_selection.2.1 fzSim (("u1").data) (rawKey fzRaw) ⟨[fz1, fz2], 3⟩ fz2 (by decide),
    C6_fuzzy_selection.2.2 fernId fzSim false fzRaw (("u1").data) ⟨[fz1, fz2], 3⟩ fz1
      (by decide) (by decide)⟩

/-! ## Batch-delete properties (C9) -/

theorem batchChunks_nil (bs : Nat) (hbs : 0 < bs) : batchChunks bs [] = [] := by
  have h0 : (bs - 1) / bs = 0 := Nat.div_eq_of_lt (by omega)
  simp [batchChunks, batchStarts, h0]

/-- The batch loop takes the first `bs`-slice and then runs on the
rest: `range(0, len, bs)` slicing decomposes head/tail. -/
theorem batchChunks_cons (bs : Nat) (hbs : 0 < bs) (ids : List Nat) (hne : ¬ ids = []) :
    batchChunks bs ids = ids.take bs :: batchChunks bs (ids.drop bs) := by
  have hlen : 0 < ids.length := List.length_pos.mpr hne
  unfold batchChunks batchStarts
  rw [List.length_drop]
  have hk : (ids.length + bs - 1) / bs = (ids.length - bs + bs - 1) / bs + 1 := by
    have h1 : ids.length + bs - 1 = (ids.length - 1) + bs := by omega
    rw [h1, Nat.add_div_right _ hbs]
    congr 1
    rcases le_or_lt ids.length bs with hle | hlt
    · rw [Nat.div_eq_of_lt (by omega), Nat.div_eq_of_lt (by omega)]
    · congr 1
      omega
  rw [hk, List.range_succ_eq_map, List.map_cons, List.map_cons, List.map_map, List.map_map]
  congr 1
  · norm_num
  · rw [List.map_map]
    refine List.map_congr_left fun i _ => ?_
    simp only [Function.comp_apply]
    show (ids.drop (Nat.succ i * bs)).take bs = ((ids.drop bs).drop (i * bs)).take bs
    rw [List.drop_drop]
    congr 2
    rw [Nat.succ_mul]
    ring

theorem flatten_batchChunks (bs : Nat) (hbs : 0 < bs) (ids : List Nat) :
    (batchChunks bs ids).flatten = ids := by
  have H : ∀ (n : Nat) (l : List Nat), l.length = n → (batchChunks bs l).flatten = l := by
    intro n
    induction n using Nat.strong_induction_on with
    | _ n ih =>
      intro l hlen
      by_cases hne : l = []
      · subst hne
        rw [batchChunks_nil bs hbs]
        rfl
      · rw [batchChunks_cons bs hbs l hne, List.flatten_cons,
          ih (l.drop bs).length
            (by rw [List.length_drop]; have := List.length_pos.mpr hne; omega)
            (l.drop bs) rfl,
          List.take_append_drop]
  exact H ids.length ids rfl

/-- Running the per-batch deletes equals one delete over the union of
the batches, and the accumulated row count is the number of rows
removed. -/
theorem deleteChunks_spec :
    ∀ (cs : List (List Nat)) (db : List SubscriptionRecord),
      deleteChunks cs db =
        (db.length - (db.filter fun r => decide (¬ r.ind ∈ cs.flatten)).length,
          db.filter fun r => decide (¬ r.ind ∈ cs.flatten)) := by
  intro cs
  induction cs with
  | nil =>
    intro db
    simp [deleteChunks]
  | cons c cs ih =>
    intro db
    have hdef : deleteChunks (c :: cs) db =
        (db.length - (db.filter fun r => decide (¬ r.ind ∈ c)).length +
          (deleteChunks cs (db.filter fun r => decide (¬ r.ind ∈ c))).1,
         (deleteChunks cs (db.filter fun r => decide (¬ r.ind ∈ c))).2) := rfl
    have hff : ((db.filter fun r => decide (¬ r.ind ∈ c)).filter
          fun r => decide (¬ r.ind ∈ cs.flatten)) =
        db.filter fun r => decide (¬ r.ind ∈ (c :: cs).flatten) := by
      rw [List.filter_filter]
      refine List.filter_congr fun r _ => ?_
      simp only [List.flatten_cons, List.mem_append, not_or, Bool.decide_and]
      exact Bool.and_comm _ _
    rw [hdef, ih, hff]
    have h1 : (db.filter fun r => decide (¬ r.ind ∈ (c :: cs).flatten)).length ≤
        (db.filter fun r => decide (¬ r.ind ∈ c)).length := by
      rw [← hff]
      exact List.length_filter_le _ _
    have h2 : (db.filter fun r => decide (¬ r.ind ∈ c)).length ≤ db.length :=
      List.length_filter_le _ _
    simp only [Prod.mk.injEq]
    exact ⟨by omega, trivial⟩

/-- C9: for any positive batch size and non-empty `inds`,
`delete_subscriptions` deletes exactly the rows whose `ind` occurs in
`inds` — the `user_id` argument never constrains the delete, so rows
of other users are removed too (the statement holds for every `db`
whatever user each row belongs to, and the returned count is the
number of rows removed). -/
theorem C9_delete_ignores_user (bs : Nat) (user : Str) (inds : List Nat)
    (db : List SubscriptionRecord) (hbs : 0 < bs) (hne : ¬ inds = []) :
    delete_subscriptions bs user inds db =
      .ok (db.length - (db.filter fun r => decide (¬ r.ind ∈ inds)).length,
        db.filter fun r => decide (¬ r.ind ∈ inds)) := by
  unfold delete_subscriptions batch_delete
  rw [if_neg (by simpa [List.isEmpty_iff] using hne),
    if_neg (by simpa [List.isEmpty_iff] using hne),
    deleteChunks_spec, flatten_batchChunks bs hbs inds]

/-- Two rows owned by `u1` and one by `u2` for the C9 witness. -/
def delRec (i : Nat) (u : Str) : SubscriptionRecord :=
  ⟨i, u, ("b").data, ("s").data, ("p").data, ("USD").data, 5, none, none, ("k").data⟩

/-- C9 witness: deleting inds `[1, 2, 3]` as user `u1` also removes
row 2, which belongs to user `u2`; only row 4 survives and the
returned count is 2. -/
theorem C9_delete_ignores_user_witness :
    delete_subscriptions 2 (("u1").data) [1, 2, 3]
        [delRec 1 (("u1").data), delRec 2 (("u2").data), delRec 4 (("u1").data)] =
      .ok (2, [delRec 4 (("u1").data)]) :=
  (C9_delete_ignores_user 2 (("u1").data) [1, 2, 3]
      [delRec 1 (("u1").data), delRec 2 (("u2").data), delRec 4 (("u1").data)]
      (by decide) (by decide)).trans (by decide)

/-! ## Field-encryption properties (C10) -/

/-- What one pass of the sensitive-field loop does to a single entry:
touched iff its key is a sensitive field and its value truthy. -/
def updMark (g : PyVal → PyVal) (flds : List Str) (kv : Str × PyVal) : Str × PyVal :=
  if kv.1 ∈ flds ∧ pyTruthy kv.2 = true then (kv.1, g kv.2) else kv

theorem updMark_fst (g : PyVal → PyVal) (flds : List Str) (kv : Str × PyVal) :
    (updMark g flds kv).1 = kv.1 := by
  unfold updMark
  split_ifs <;> rfl

theorem dictGet_none (d : PyDict) (k : Str) (h : dictGet d k = none) :
    ∀ kv ∈ d, ¬ kv.1 = k := by
  intro kv hkv
  unfold dictGet at h
  cases hf : d.find? fun kv => decide (kv.1 = k) with
  | some x =>
    rw [hf] at h
    simp at h
  | none =>
    have := List.find?_eq_none.mp hf kv hkv
    simpa using this

theorem dictGet_of_mem (d : PyDict) (kv : Str × PyVal) (hnd : (d.map Prod.fst).Nodup)
    (hkv : kv ∈ d) : dictGet d kv.1 = some kv.2 := by
  induction d with
  | nil => cases hkv
  | cons a d ih =>
    rw [List.map_cons, List.nodup_cons] at hnd
    rcases List.mem_cons.mp hkv with h | h
    · subst h
      unfold dictGet
      rw [List.find?_cons_of_pos _ (by simp)]
      rfl
    · have hne : ¬ a.1 = kv.1 := by
        intro he
        exact hnd.1 (he ▸ List.mem_map.mpr ⟨kv, h, rfl⟩)
      unfold dictGet
      rw [List.find?_cons_of_neg _ (by simp [hne])]
      exact ih hnd.2 h

theorem dictSet_eq_map (d : PyDict) (k : Str) (v : PyVal) :
    dictSet d k v = d.map fun kv => if kv.1 = k then (kv.1, v) else kv := rfl

theorem keys_dictSet (d : PyDict) (k : Str) (v : PyVal) :
    (dictSet d k v).map Prod.fst = d.map Prod.fst := by
  rw [dictSet_eq_map, List.map_map]
  refine List.map_congr_left fun kv _ => ?_
  simp only [Function.comp_apply]
  split_ifs <;> rfl

/-- The sensitive-field loop (for any per-value transformation `g`)
equals one pass marking each entry, provided the field list and the
dict keys are duplicate-free (as the literal `SENSITIVE_FIELDS` lists
and Python dict keys are). -/
theorem foldl_updStep_eq_map (g : PyVal → PyVal) :
    ∀ (flds : List Str) (d : PyDict), flds.Nodup → (d.map Prod.fst).Nodup →
      flds.foldl
        (fun dd field =>
          match dictGet dd field with
          | some v => if pyTruthy v then dictSet dd field (g v) else dd
          | none => dd) d =
      d.map (updMark g flds) := by
  intro flds
  induction flds with
  | nil =>
    intro d _ _
    rw [List.foldl_nil]
    refine Eq.symm ((List.map_congr_left fun kv _ => ?_).trans (List.map_id d))
    simp [updMark]
  | cons φ fs ih =>
    intro d hnf hnd
    rw [List.nodup_cons] at hnf
    rw [List.foldl_cons]
    cases hget : dictGet d φ with
    | none =>
      change List.foldl _ d fs = _
      rw [ih d hnf.2 hnd]
      refine List.map_congr_left fun kv hkv => ?_
      have hne := dictGet_none d φ hget kv hkv
      simp [updMark, List.mem_cons, hne]
    | some v =>
      by_cases ht : pyTruthy v = true
      · change List.foldl _ (if pyTruthy v = true then dictSet d φ (g v) else d) fs = _
        rw [if_pos ht, ih (dictSet d φ (g v)) hnf.2 (by rw [keys_dictSet]; exact hnd),
          dictSet_eq_map, List.map_map]
        refine List.map_congr_left fun kv hkv => ?_
        simp only [Function.comp_apply]
        by_cases hk : kv.1 = φ
        · have hv : kv.2 = v := by
            have h2 := dictGet_of_mem d kv hnd hkv
            rw [hk, hget] at h2
            injection h2 with h2
            exact h2.symm
          rw [if_pos hk]
          unfold updMark
          rw [if_neg (by simp [hk, hnf.1]), if_pos ⟨by simp [hk], by simp [hv, ht]⟩]
          rw [hv]
        · rw [if_neg hk]
          unfold updMark
          simp [List.mem_cons, hk]
      · change List.foldl _ (if pyTruthy v = true then dictSet d φ (g v) else d) fs = _
        rw [if_neg ht, ih d hnf.2 hnd]
        refine List.map_congr_left fun kv hkv => ?_
        by_cases hk : kv.1 = φ
        · have hv : kv.2 = v := by
            have h2 := dictGet_of_mem d kv hnd hkv
            rw [hk, hget] at h2
            injection h2 with h2
            exact h2.symm
          unfold updMark
          rw [if_neg (by simp [hk, hnf.1, hv, ht]), if_neg (by simp [hv, ht])]
        · unfold updMark
          simp [List.mem_cons, hk]

theorem encStep_eq (f : Fernet) : encStep f =
    fun dd field =>
      match dictGet dd field with
      | some v => if pyTruthy v then dictSet dd field (encrypt_value f v) else dd
      | none => dd := rfl

theorem decStep_eq (f : Fernet) : decStep f =
    fun dd field =>
      match dictGet dd field with
      | some v => if pyTruthy v then dictSet dd field (decrypt_value f v) else dd
      | none => dd := rfl

/-- C10: for a table with configured sensitive fields and a record
dict with duplicate-free keys, given the Fernet round trip
(`dec (enc s) = s` with non-empty ciphertexts): decrypting the
encrypted dict returns the original whenever every sensitive field
present holds a non-empty string; `encrypt_data` leaves every
non-sensitive key untouched; and it leaves untouched every sensitive
field whose value is `None` or the empty string. -/
theorem C10_sensitive_field_roundtrip (f : Fernet) (table : Str) (flds : List Str)
    (d : PyDict) (hf : sensitiveFieldsFor table = some flds) (hnf : flds.Nodup)
    (hnd : (d.map Prod.fst).Nodup)
    (hrt : ∀ s : Str, ¬ s = [] → f.dec (f.enc s) = s ∧ ¬ f.enc s = []) :
    ((∀ kv ∈ d, kv.1 ∈ flds → ∃ s : Str, ¬ s = [] ∧ kv.2 = PyVal.vStr s) →
        decrypt_data f table (encrypt_data f table d) = d) ∧
    (∀ kv ∈ d, ¬ kv.1 ∈ flds → dictGet (encrypt_data f table d) kv.1 = some kv.2) ∧
    (∀ kv ∈ d, kv.2 = PyVal.vNone ∨ kv.2 = PyVal.vStr [] →
        dictGet (encrypt_data f table d) kv.1 = some kv.2) := by
  by_cases hd : d = []
  · subst hd
    exact ⟨fun _ => rfl, fun kv hkv => absurd hkv (List.not_mem_nil kv),
      fun kv hkv => absurd hkv (List.not_mem_nil kv)⟩
  have hde : d.isEmpty = false := by simp [List.isEmpty_iff, hd]
  have henc : encrypt_data f table d = d.map (updMark (encrypt_value f) flds) := by
    simp only [encrypt_data, hde, Bool.false_eq_true, if_false, hf]
    rw [encStep_eq f]
    exact foldl_updStep_eq_map (encrypt_value f) flds d hnf hnd
  have hkeys : (d.map (updMark (encrypt_value f) flds)).map Prod.fst = d.map Prod.fst := by
    rw [List.map_map]
    exact List.map_congr_left fun kv _ => updMark_fst (encrypt_value f) flds kv
  have hnd2 : ((d.map (updMark (encrypt_value f) flds)).map Prod.fst).Nodup := by
    rw [hkeys]
    exact hnd
  have hde2 : (d.map (updMark (encrypt_value f) flds)).isEmpty = false := by
    simp [List.isEmpty_iff, hd]
  have hdec : decrypt_data f table (encrypt_data f table d) =
      (d.map (updMark (encrypt_value f) flds)).map (updMark (decrypt_value f) flds) := by
    rw [henc]
    simp only [decrypt_data, hde2, Bool.false_eq_true, if_false, hf]
    rw [decStep_eq f]
    exact foldl_updStep_eq_map (decrypt_value f) flds _ hnf hnd2
  refine ⟨?_, ?_, ?_⟩
  · intro hstr
    rw [hdec, List.map_map]
    refine (List.map_congr_left fun kv hkv => ?_).trans (List.map_id d)
    simp only [Function.comp_apply]
    by_cases hmem : kv.1 ∈ flds
    · obtain ⟨sv, hsne, hsv⟩ := hstr kv hkv hmem
      have ht : pyTruthy kv.2 = true := by
        rw [hsv]
        simp [pyTruthy, hsne]
      have henc1 : encrypt_value f kv.2 = PyVal.vStr (f.enc sv) := by
        rw [hsv]
        simp [encrypt_value, hsne]
      have hencne := (hrt sv hsne).2
      have hinner : updMark (encrypt_value f) flds kv = (kv.1, PyVal.vStr (f.enc sv)) := by
        unfold updMark
        rw [if_pos ⟨hmem, ht⟩, henc1]
      rw [hinner]
      unfold updMark
      rw [if_pos ⟨by simpa using hmem, by simp [pyTruthy, hencne]⟩]
      have hdec1 : decrypt_value f (PyVal.vStr (f.enc sv)) = PyVal.vStr sv := by
        simp [decrypt_value, hencne, (hrt sv hsne).1]
      show (kv.1, decrypt_value f (PyVal.vStr (f.enc sv))) = kv
      rw [hdec1, ← hsv]
    · unfold updMark
      rw [if_neg (by simp [hmem]), if_neg (by simp [hmem])]
      rfl
  · intro kv hkv hmem
    rw [henc]
    have hid : updMark (encrypt_value f) flds kv = kv := by
      unfold updMark
      rw [if_neg (by simp [hmem])]
    have hg := dictGet_of_mem (d.map (updMark (encrypt_value f) flds))
      (updMark (encrypt_value f) flds kv) hnd2 (List.mem_map.mpr ⟨kv, hkv, rfl⟩)
    rw [hid] at hg
    exact hg
  · intro kv hkv hval
    rw [henc]
    have hid : updMark (encrypt_value f) flds kv = kv := by
      unfold updMark
      rcases hval with h | h <;> rw [if_neg (by simp [pyTruthy, h])]
    have hg := dictGet_of_mem (d.map (updMark (encrypt_value f) flds))
      (updMark (encrypt_value f) flds kv) hnd2 (List.mem_map.mpr ⟨kv, hkv, rfl⟩)
    rw [hid] at hg
    exact hg

/-- The Fernet stand-in of the C10 witness: prepend a marker byte,
decrypt by dropping it. -/
def wFern : Fernet := ⟨fun s => 'E' :: s, fun s => s.tail⟩

def wDict : PyDict :=
  [(("seller_name").data, .vStr (("AWS").data)), (("amount").data, .vNum 120)]

/-- C10 witness: the theorem applied to the `subscription_records`
field list and a concrete record, plus the evaluated round trip. -/
theorem C10_sensitive_field_roundtrip_witness :
    (((∀ kv ∈ wDict,
          kv.1 ∈ [("seller_name").data, ("plan_name").data, ("note").data] →
          ∃ s : Str, ¬ s = [] ∧ kv.2 = PyVal.vStr s) →
        decrypt_data wFern (("subscription_records").data)
          (encrypt_data wFern (("subscription_records").data) wDict) = wDict) ∧
      (∀ kv ∈ wDict,
        ¬ kv.1 ∈ [("seller_name").data, ("plan_name").data, ("note").data] →
        dictGet (encrypt_data wFern (("subscription_records").data) wDict) kv.1 =
          some kv.2) ∧
      (∀ kv ∈ wDict, kv.2 = PyVal.vNone ∨ kv.2 = PyVal.vStr [] →
        dictGet (encrypt_data wFern (("subscription_records").data) wDict) kv.1 =
          some kv.2)) ∧
    decrypt_data wFern (("subscription_records").data)
        (encrypt_data wFern (("subscription_records").data) wDict) = wDict :=
  ⟨C10_sensitive_field_roundtrip wFern (("subscription_records").data)
      [("seller_name").data, ("plan_name").data, ("note").data] wDict
      (by decide) (by decide) (by decide)
      (fun s hs => ⟨rfl, List.cons_ne_nil 'E' s⟩),
    (C10_sensitive_field_roundtrip wFern (("subscription_records").data)
        [("seller_name").data, ("plan_name").data, ("note").data] wDict
        (by decide) (by decide) (by decide)
        (fun s hs => ⟨rfl, List.cons_ne_nil 'E' s⟩)).1
      (by
        intro kv hkv hmem
        rcases List.mem_cons.mp hkv with h | h
        · subst h
          exact ⟨("AWS").data, by decide, rfl⟩
        · rcases List.mem_cons.mp h with h2 | h2
          · subst h2
            exact absurd hmem (by decide)
          · exact absurd h2 (List.not_mem_nil kv))⟩

end RPC